import Mathlib

/-!
Verification of the cuSpatial bounding-box core
(`cpp/include/cuspatial/detail/bounding_boxes.cuh`) and of its ULP-based
floating-point comparator (`detail/utility/floating_point.cuh`).

Modelling choices:

* Point coordinates are modelled as rationals: the properties under study
  (segmented reduction over contiguous id runs, min/max algebra, box
  invariants) concern the order/arithmetic structure, not rounding.
* `thrust::reduce_by_key` (an external library collaborator with a fixed,
  documented contract) is modelled by `reduceByKey`: a sequential
  left-fold reduction of consecutive elements whose keys are equal.
* The floating-point comparator operates on the bit pattern of its inputs
  (through a type-punning union); it is embedded on bit patterns directly,
  as natural numbers below `2 ^ w`, with `w` the representation width and
  `e` the exponent width.  `std::isnan` is rendered on the bits by the
  IEEE-754 rule (exponent field all ones and mantissa field nonzero).
-/

/-- A 2D point, `cuspatial::vec_2d<T>`.  Modelled from the spec:
`vec_2d.hpp` is an external value-type collaborator; the spec describes a
point as a pair of coordinates with componentwise arithmetic. -/
@[ext]
structure Vec2 where
  x : ℚ
  y : ℚ
deriving DecidableEq, Repr

instance : Add Vec2 := ⟨fun a b => ⟨a.x + b.x, a.y + b.y⟩⟩

instance : Sub Vec2 := ⟨fun a b => ⟨a.x - b.x, a.y - b.y⟩⟩

theorem Vec2.add_def (a b : Vec2) : a + b = ⟨a.x + b.x, a.y + b.y⟩ := rfl

theorem Vec2.sub_def (a b : Vec2) : a - b = ⟨a.x - b.x, a.y - b.y⟩ := rfl

/-- A bounding box `cuspatial::box<T>`: a pair of corner points. -/
@[ext]
structure Box where
  v1 : Vec2
  v2 : Vec2
deriving DecidableEq, Repr

/-- Componentwise minimum of two points.  Modelled from the spec:
`box_min` lives in `vec_2d.hpp`; the spec describes the merge as the
elementwise minimum. -/
def box_min (a b : Vec2) : Vec2 := ⟨min a.x b.x, min a.y b.y⟩

/-- Componentwise maximum of two points.  Modelled from the spec:
`box_max` lives in `vec_2d.hpp`; the spec describes the merge as the
elementwise maximum. -/
def box_max (a b : Vec2) : Vec2 := ⟨max a.x b.x, max a.y b.y⟩

/-- The functor `cuspatial::detail::point_bounding_box`: expand a point
`p` to the degenerate box `{p - (r,r), p + (r,r)}`. -/
def point_bounding_box (expansion_radius : ℚ) (point : Vec2) : Box :=
  ⟨point - ⟨expansion_radius, expansion_radius⟩,
   point + ⟨expansion_radius, expansion_radius⟩⟩

/-- The functor `cuspatial::detail::box_minmax`: merge two boxes into
`{box_min (box_min a.v1 a.v2) b.v1, box_max (box_max a.v1 a.v2) b.v2}`. -/
def box_minmax (a b : Box) : Box :=
  ⟨box_min (box_min a.v1 a.v2) b.v1, box_max (box_max a.v1 a.v2) b.v2⟩

/-- The output invariant of the spec's data model: the first corner is
componentwise at most the second. -/
def Box.Valid (b : Box) : Prop := b.v1.x ≤ b.v2.x ∧ b.v1.y ≤ b.v2.y

instance (b : Box) : Decidable b.Valid :=
  inferInstanceAs (Decidable (b.v1.x ≤ b.v2.x ∧ b.v1.y ≤ b.v2.y))

/-- Tail of `thrust::reduce_by_key` over a key/value stream: `k` is the key
of the run being accumulated and `acc` the fold of its values so far.  A
pair whose key equals `k` is folded into `acc`; any other key closes the
run, emitting `acc`. -/
def reduceByKeyGo {K V : Type} [DecidableEq K] (op : V → V → V) :
    K → V → List (K × V) → List V
  | _, acc, [] => [acc]
  | k, acc, (k', v) :: rest =>
    if k = k' then reduceByKeyGo op k (op acc v) rest
    else acc :: reduceByKeyGo op k' v rest

/-- Semantics of `thrust::reduce_by_key` with `thrust::equal_to`:
reduce each maximal run of consecutive pairs with equal keys by a left
fold of `op`, emitting one value per run, in order. -/
def reduceByKey {K V : Type} [DecidableEq K] (op : V → V → V) :
    List (K × V) → List V
  | [] => []
  | (k, v) :: rest => reduceByKeyGo op k v rest

/-- The function `cuspatial::point_bounding_boxes`: expand every point by
the radius and reduce consecutive equal-id runs with `box_minmax`
(`thrust::reduce_by_key` over a transform iterator). -/
def point_bounding_boxes {K : Type} [DecidableEq K]
    (ids : List K) (points : List Vec2) (expansion_radius : ℚ) : List Box :=
  reduceByKey box_minmax
    (ids.zip (points.map (point_bounding_box expansion_radius)))

/-- Geometry id of a vertex.  Modelled from the spec:
`make_geometry_id_iterator` lives in `iterator_factory.cuh`; the spec
defines `id(v)` as "the unique `i` such that `offsets[i] ≤ v <
offsets[i+1]`", i.e. the number of offsets after the first that are at
most `v` (for sorted offsets). -/
def geometry_id (offsets : List ℕ) (v : ℕ) : ℕ :=
  ((offsets.drop 1).takeWhile (fun o => decide (o ≤ v))).length

/-- The function `cuspatial::linestring_bounding_boxes`: derive per-vertex
ids from the one-level offset array and reduce; degenerate inputs (no
linestrings or no vertices) return an empty output at once. -/
def linestring_bounding_boxes (linestring_offsets : List ℕ)
    (linestring_vertices : List Vec2) (expansion_radius : ℚ) : List Box :=
  let num_linestrings : ℤ := (linestring_offsets.length : ℤ) - 1
  let num_vertices : ℤ := (linestring_vertices.length : ℤ)
  if num_linestrings = 0 ∨ num_vertices = 0 then []
  else
    point_bounding_boxes
      ((List.range linestring_vertices.length).map (geometry_id linestring_offsets))
      linestring_vertices expansion_radius

/-- Error class raised by the validation collaborator
(`CUSPATIAL_EXPECTS_VALID_POLYGON_SIZES`). -/
inductive CuspatialError : Type
  | InvalidGeometryError
deriving DecidableEq, Repr

/-- The function `cuspatial::polygon_bounding_boxes`.  The validation
collaborator is a separate header (`detail/utility/validation.hpp`) and is
modelled from the spec as a predicate `valid` on the
vertex-count/polygon-offset-count/ring-offset-count triad, consulted only
when the polygon count is positive.  Two-level ids resolve each vertex to
its ring and the ring to its polygon. -/
def polygon_bounding_boxes (valid : ℕ → ℕ → ℕ → Bool)
    (polygon_offsets polygon_ring_offsets : List ℕ)
    (polygon_vertices : List Vec2) (expansion_radius : ℚ) :
    Except CuspatialError (List Box) :=
  let num_polys : ℤ := (polygon_offsets.length : ℤ) - 1
  let num_rings : ℤ := (polygon_ring_offsets.length : ℤ) - 1
  let num_vertices : ℤ := (polygon_vertices.length : ℤ)
  if 0 < num_polys then
    if valid polygon_vertices.length polygon_offsets.length
        polygon_ring_offsets.length then
      if num_polys = 0 ∨ num_rings = 0 ∨ num_vertices = 0 then Except.ok []
      else
        Except.ok (point_bounding_boxes
          ((List.range polygon_vertices.length).map
            (fun v => geometry_id polygon_offsets
              (geometry_id polygon_ring_offsets v)))
          polygon_vertices expansion_radius)
    else Except.error CuspatialError.InvalidGeometryError
  else Except.ok []

/-- Left fold of a nonempty list from its head (`d` is returned for the
empty list, which never arises below). -/
def reduce1 {α : Type} (op : α → α → α) (d : α) : List α → α
  | [] => d
  | x :: xs => xs.foldl op x

/-- A default box, used only as the `reduce1` placeholder. -/
def dfltBox : Box := ⟨⟨0, 0⟩, ⟨0, 0⟩⟩

/-- Key/value stream of a list of runs: each run `(k, vs)` contributes one
pair `(k, v)` per `v ∈ vs`, in order. -/
def segPairs {K V : Type} (segs : List (K × List V)) : List (K × V) :=
  (segs.map (fun s => s.2.map (fun v => (s.1, v)))).flatten

/-- Id stream of a list of runs. -/
def runIds {K V : Type} (segs : List (K × List V)) : List K :=
  (segs.map (fun s => List.replicate s.2.length s.1)).flatten

/-- Value stream of a list of runs. -/
def runVals {K V : Type} (segs : List (K × List V)) : List V :=
  (segs.map (fun s => s.2)).flatten

/-- Per-vertex id stream of an offset array, unfolded: geometry `c` owns
the first `o₁ - o₀` vertices, geometry `c+1` the next `o₂ - o₁`, … . -/
def expandIds (c : ℕ) : List ℕ → List ℕ
  | a :: b :: rest => List.replicate (b - a) c ++ expandIds (c + 1) (b :: rest)
  | _ => []

/-- Runs of an offset array over a value list: geometry `c + i` is paired
with its slice of the values (the values are aligned at the first
offset). -/
def offsetSegs {α : Type} (c : ℕ) : List ℕ → List α → List (ℕ × List α)
  | a :: b :: rest, vals =>
    (c, vals.take (b - a)) :: offsetSegs (c + 1) (b :: rest) (vals.drop (b - a))
  | _, _ => []

/-- Vertex offsets of each polygon: the polygon offsets composed with the
ring offsets. -/
def compOffsets (polygon_offsets ring_offsets : List ℕ) : List ℕ :=
  polygon_offsets.map (fun i => ring_offsets.getD i 0)

/-- The constant `cuspatial::detail::default_max_ulp`. -/
def default_max_ulp : ℕ := 4

/-- The function `cuspatial::detail::sign_bit_mask`: `Bits{1} << 8 *
sizeof(Bits) - 1` for a `w`-bit unsigned type. -/
def sign_bit_mask (w : ℕ) : ℕ := 1 <<< (w - 1)

/-- The function `cuspatial::detail::signmagnitude_to_biased` on `w`-bit
words: `sam & sign_bit_mask() ? ~sam + 1 : sam | sign_bit_mask()`, with
`~sam` the `w`-bit complement `2 ^ w - 1 - sam` and `+` truncated to `w`
bits. -/
def signmagnitude_to_biased (w sam : ℕ) : ℕ :=
  if sam &&& sign_bit_mask w ≠ 0 then (2 ^ w - 1 - sam + 1) % 2 ^ w
  else sam ||| sign_bit_mask w

/-- Predicate for `std::isnan` on the bit pattern of a `w`-bit float with
`e` exponent bits (and `w - 1 - e` mantissa bits): the exponent field is
all ones and the mantissa field is nonzero. -/
def isnan_bits (w e b : ℕ) : Bool :=
  decide (b / 2 ^ (w - 1 - e) % 2 ^ e = 2 ^ e - 1) &&
    decide (b % 2 ^ (w - 1 - e) ≠ 0)

/-- The function `cuspatial::detail::float_equal` on bit patterns: `false`
if either operand is NaN, else compare the distance of the biased images
against the tolerance. -/
def float_equal (w e max_ulp lhs rhs : ℕ) : Bool :=
  if isnan_bits w e lhs || isnan_bits w e rhs then false
  else
    let lhsbiased := signmagnitude_to_biased w lhs
    let rhsbiased := signmagnitude_to_biased w rhs
    if rhsbiased ≤ lhsbiased then decide (lhsbiased - rhsbiased ≤ max_ulp)
    else decide (rhsbiased - lhsbiased ≤ max_ulp)

/-- The function `cuspatial::detail::not_float_equal`: the source returns
`!float_equal(lhs, rhs)` without forwarding its `max_ulp` template
argument, so the default tolerance is always used. -/
def not_float_equal (w e max_ulp lhs rhs : ℕ) : Bool :=
  !(float_equal w e default_max_ulp lhs rhs)

/-- Magnitude field of a `w`-bit sign-magnitude pattern. -/
def mag_of (w b : ℕ) : ℕ := b % 2 ^ (w - 1)

/-- Sign bit of a `w`-bit sign-magnitude pattern. -/
def sign_of (w b : ℕ) : ℕ := b / 2 ^ (w - 1)

/-- Numeric strict order of IEEE-754 values read off their bit patterns:
within the non-negative patterns the order is the magnitude order, within
the negative patterns it is reversed, every negative value is below every
positive one, and `-0` equals `+0`.  (For non-NaN patterns this is the
standard characterization of the order of the represented values.) -/
def val_lt (w a b : ℕ) : Bool :=
  if sign_of w a = 1 then
    if sign_of w b = 1 then decide (mag_of w b < mag_of w a)
    else decide (mag_of w a ≠ 0 ∨ mag_of w b ≠ 0)
  else
    if sign_of w b = 1 then false
    else decide (mag_of w a < mag_of w b)

/-- Magnitude of the infinity pattern of a `w`-bit float with `e` exponent
bits: exponent field all ones, mantissa zero.  Patterns of larger
magnitude are exactly the NaNs. -/
def inf_mag (w e : ℕ) : ℕ := (2 ^ e - 1) * 2 ^ (w - 1 - e)

/-- C7: for every floating-point value x that is not NaN and every
non-negative ULP tolerance, float_equal(x, x) returns true; and for every
value z, float_equal(NaN, z) and float_equal(z, NaN) return false, for
every tolerance. -/
theorem float_equal_refl_nan_false (w e t x n z : ℕ) :
    (isnan_bits w e x = false → float_equal w e t x x = true) ∧
    (isnan_bits w e n = true →
      float_equal w e t n z = false ∧ float_equal w e t z n = false) := by
  constructor
  · intro hx
    simp [float_equal, hx]
  · intro hn
    constructor <;> simp [float_equal, hn]

/-- Witness for C7 at concrete single-precision patterns: `x = 1.0f`
(bits 0x3F800000) is not NaN and compares equal to itself at tolerance 0;
the quiet NaN pattern 0x7FC00000 compares unequal to everything. -/
theorem float_equal_refl_nan_false_witness :
    float_equal 32 8 0 0x3F800000 0x3F800000 = true ∧
    float_equal 32 8 0 0x7FC00000 0x3F800000 = false ∧
    float_equal 32 8 0 0x3F800000 0x7FC00000 = false :=
  ⟨(float_equal_refl_nan_false 32 8 0 0x3F800000 0x7FC00000 0x3F800000).1
      (by decide),
   (float_equal_refl_nan_false 32 8 0 0x3F800000 0x7FC00000 0x3F800000).2
      (by decide)⟩

/-- C9: float_equal(+0.0, -0.0) returns true for every tolerance,
including max_ulp = 0: signmagnitude_to_biased maps the two zero bit
patterns (all-zeros, and sign-bit-only `2 ^ (w-1)`) to the same biased
integer, so their computed ULP distance is 0. -/
theorem float_equal_pos_zero_neg_zero (w e t : ℕ) (hw : 1 ≤ w) :
    signmagnitude_to_biased w 0 = signmagnitude_to_biased w (2 ^ (w - 1)) ∧
    float_equal w e t 0 (2 ^ (w - 1)) = true ∧
    float_equal w e t (2 ^ (w - 1)) 0 = true := by
  have hmask : sign_bit_mask w = 2 ^ (w - 1) := by
    simp [sign_bit_mask, Nat.shiftLeft_eq]
  have hpow : (0 : ℕ) < 2 ^ (w - 1) := Nat.pos_pow_of_pos _ (by decide)
  have hbias0 : signmagnitude_to_biased w 0 = 2 ^ (w - 1) := by
    simp [signmagnitude_to_biased, hmask, Nat.zero_and]
  have hsub : 2 ^ w - 1 - 2 ^ (w - 1) + 1 = 2 ^ (w - 1) := by
    have hw2 : 2 ^ w = 2 ^ (w - 1) + 2 ^ (w - 1) := by
      have : w - 1 + 1 = w := Nat.succ_pred_eq_of_pos hw
      calc 2 ^ w = 2 ^ (w - 1 + 1) := by rw [this]
        _ = 2 ^ (w - 1) + 2 ^ (w - 1) := by rw [Nat.pow_succ]; omega
    omega
  have hbias1 : signmagnitude_to_biased w (2 ^ (w - 1)) = 2 ^ (w - 1) := by
    have hand : 2 ^ (w - 1) &&& sign_bit_mask w ≠ 0 := by
      rw [hmask, Nat.and_self]
      omega
    have hlt : 2 ^ (w - 1) < 2 ^ w := by
      have h1 : w - 1 < w := by omega
      exact Nat.pow_lt_pow_right (by decide) h1
    simp only [signmagnitude_to_biased, if_pos hand, hsub]
    exact Nat.mod_eq_of_lt hlt
  have hnan0 : isnan_bits w e 0 = false := by
    simp [isnan_bits]
  have hnan1 : isnan_bits w e (2 ^ (w - 1)) = false := by
    have hdvd : 2 ^ (w - 1 - e) ∣ 2 ^ (w - 1) :=
      Nat.pow_dvd_pow 2 (by omega)
    simp [isnan_bits, Nat.eq_zero_of_dvd_of_lt, Nat.mod_eq_zero_of_dvd hdvd]
  refine ⟨hbias0.trans hbias1.symm, ?_, ?_⟩ <;>
    simp [float_equal, hnan0, hnan1, hbias0, hbias1]

/-- Witness for C9 at single precision and tolerance 0: the bit patterns
of +0.0f (0x00000000) and -0.0f (0x80000000 = `2 ^ 31`) compare equal. -/
theorem float_equal_pos_zero_neg_zero_witness :
    signmagnitude_to_biased 32 0 = signmagnitude_to_biased 32 (2 ^ 31) ∧
    float_equal 32 8 0 0 (2 ^ 31) = true ∧
    float_equal 32 8 0 (2 ^ 31) 0 = true := by
  have h := float_equal_pos_zero_neg_zero 32 8 0 (by decide)
  simpa using h

/-- C10 (code bug): not_float_equal is documented to return the negation
of float_equal at its own max_ulp tolerance, but the source calls
`float_equal(lhs, rhs)` without forwarding `max_ulp`; at tolerance 0 on
the adjacent single-precision patterns of 1.0f and its successor,
float_equal is false yet not_float_equal is also false (it negates the
default tolerance 4 comparison instead). -/
theorem not_float_equal_ignores_tolerance :
    not_float_equal 32 8 0 0x3F800000 0x3F800001 = false ∧
    float_equal 32 8 0 0x3F800000 0x3F800001 = false := by
  constructor <;> decide

/-- C4 (counterexample): box_minmax is not commutative on arbitrary
boxes: the second argument's corners are not both consulted for both the
min and the max, so a box whose corners are out of order breaks the
symmetry. -/
theorem box_minmax_not_comm_counterexample :
    box_minmax ⟨⟨0, 0⟩, ⟨0, 0⟩⟩ ⟨⟨5, 5⟩, ⟨1, 1⟩⟩ ≠
      box_minmax ⟨⟨5, 5⟩, ⟨1, 1⟩⟩ ⟨⟨0, 0⟩, ⟨0, 0⟩⟩ := by
  norm_num [box_minmax, box_min, box_max, Box.mk.injEq, Vec2.mk.injEq]

/-- C4 (amended): box_minmax is commutative and associative on boxes
satisfying the output invariant `v1 ≤ v2` componentwise — in particular on
every box produced by point expansion with non-negative radius and on
every box_minmax output — so any parallel partitioning of a contiguous run
that preserves run membership produces an identical box sequence. -/
theorem box_minmax_comm_assoc_of_valid (a b c : Box)
    (ha : a.Valid) (hb : b.Valid) (hc : c.Valid) :
    box_minmax a b = box_minmax b a ∧
    box_minmax (box_minmax a b) c = box_minmax a (box_minmax b c) := by
  obtain ⟨hax, hay⟩ := ha
  obtain ⟨hbx, hby⟩ := hb
  obtain ⟨hcx, hcy⟩ := hc
  constructor
  · ext <;> simp [box_minmax, box_min, box_max, min_eq_left, max_eq_right,
      hax, hay, hbx, hby] <;>
      [exact min_comm _ _; exact min_comm _ _; exact max_comm _ _;
       exact max_comm _ _]
  · ext <;> simp [box_minmax, box_min, box_max, min_eq_left, max_eq_right,
      hax, hay, hbx, hby, hcx, hcy, min_le_iff, le_max_iff] <;>
      [exact min_assoc _ _ _; exact min_assoc _ _ _;
       exact max_assoc _ _ _; exact max_assoc _ _ _]

/-- Witness for C4's amended statement on concrete valid boxes. -/
theorem box_minmax_comm_assoc_of_valid_witness :
    box_minmax ⟨⟨0, 0⟩, ⟨1, 1⟩⟩ ⟨⟨2, 2⟩, ⟨3, 3⟩⟩ =
      box_minmax ⟨⟨2, 2⟩, ⟨3, 3⟩⟩ ⟨⟨0, 0⟩, ⟨1, 1⟩⟩ ∧
    box_minmax (box_minmax ⟨⟨0, 0⟩, ⟨1, 1⟩⟩ ⟨⟨2, 2⟩, ⟨3, 3⟩⟩) ⟨⟨4, 4⟩, ⟨5, 5⟩⟩ =
      box_minmax ⟨⟨0, 0⟩, ⟨1, 1⟩⟩ (box_minmax ⟨⟨2, 2⟩, ⟨3, 3⟩⟩ ⟨⟨4, 4⟩, ⟨5, 5⟩⟩) :=
  box_minmax_comm_assoc_of_valid _ _ _ (by norm_num [Box.Valid])
    (by norm_num [Box.Valid]) (by norm_num [Box.Valid])

theorem reduceByKeyGo_run {K V : Type} [DecidableEq K] (op : V → V → V)
    (k : K) (vs : List V) (acc : V) (tail : List (K × V)) :
    reduceByKeyGo op k acc (vs.map (fun v => (k, v)) ++ tail) =
      reduceByKeyGo op k (vs.foldl op acc) tail := by
  induction vs generalizing acc with
  | nil => rfl
  | cons v vs ih => simp [reduceByKeyGo, ih]

/-- Key lemma: on a stream presented as nonempty runs whose adjacent keys
differ, `reduceByKey` emits exactly one fold per run, in order. -/
theorem reduceByKey_segPairs {K V : Type} [DecidableEq K] (op : V → V → V)
    (d : V) (segs : List (K × List V)) (hne : ∀ s ∈ segs, s.2 ≠ [])
    (hch : segs.Chain' (fun s t => s.1 ≠ t.1)) :
    reduceByKey op (segPairs segs) = segs.map (fun s => reduce1 op d s.2) := by
  induction segs with
  | nil => rfl
  | cons s segs ih =>
    obtain ⟨k, vs⟩ := s
    match vs, hne ⟨k, vs⟩ (List.mem_cons_self _ _) with
    | v :: vs', _ =>
      have hpairs : segPairs ((k, v :: vs') :: segs) =
          (k, v) :: (vs'.map (fun w => (k, w)) ++ segPairs segs) := by
        simp [segPairs]
      rw [hpairs]
      show reduceByKeyGo op k v (vs'.map (fun w => (k, w)) ++ segPairs segs) = _
      rw [reduceByKeyGo_run]
      have hr1 : reduce1 op d (v :: vs') = vs'.foldl op v := rfl
      cases segs with
      | nil => simp [segPairs, reduceByKeyGo, hr1]
      | cons t segs' =>
        obtain ⟨k2, ws⟩ := t
        match ws, hne ⟨k2, ws⟩ (List.mem_cons_of_mem _ (List.mem_cons_self _ _)) with
        | w :: ws', _ =>
          have hk : k ≠ k2 := (List.chain'_cons.mp hch).1
          have htail : segPairs ((k2, w :: ws') :: segs') =
              (k2, w) :: (ws'.map (fun u => (k2, u)) ++ segPairs segs') := by
            simp [segPairs]
          rw [htail]
          show (if k = k2 then _ else _) = _
          rw [if_neg hk]
          have ihr := ih (fun s hs => hne s (List.mem_cons_of_mem _ hs))
            (List.chain'_cons.mp hch).2
          rw [htail] at ihr
          show vs'.foldl op v :: reduceByKeyGo op k2 w
              (ws'.map (fun u => (k2, u)) ++ segPairs segs') = _
          rw [show reduceByKeyGo op k2 w (ws'.map (fun u => (k2, u)) ++ segPairs segs') =
              reduceByKey op ((k2, w) :: (ws'.map (fun u => (k2, u)) ++ segPairs segs'))
              from rfl]
          rw [ihr]
          simp [reduce1]

theorem replicate_zip {K V : Type} (k : K) (l : List V) :
    (List.replicate l.length k).zip l = l.map (fun v => (k, v)) := by
  induction l with
  | nil => rfl
  | cons v l ih => simpa [List.replicate_succ] using ih

theorem runIds_zip_runVals {K V : Type} (segs : List (K × List V)) :
    (runIds segs).zip (runVals segs) = segPairs segs := by
  induction segs with
  | nil => rfl
  | cons s segs ih =>
    have h1 : runIds (s :: segs) = List.replicate s.2.length s.1 ++ runIds segs := by
      simp [runIds]
    have h2 : runVals (s :: segs) = s.2 ++ runVals segs := by
      simp [runVals]
    have h3 : segPairs (s :: segs) = s.2.map (fun v => (s.1, v)) ++ segPairs segs := by
      simp [segPairs]
    rw [h1, h2, h3, List.zip_append (by simp), replicate_zip, ih]

theorem runIds_mapVals {K V W : Type} (f : V → W) (segs : List (K × List V)) :
    runIds (segs.map (fun s => (s.1, s.2.map f))) = runIds segs := by
  induction segs with
  | nil => rfl
  | cons s segs ih => simp [runIds] at ih ⊢; exact ih

theorem runVals_mapVals {K V W : Type} (f : V → W) (segs : List (K × List V)) :
    runVals (segs.map (fun s => (s.1, s.2.map f))) = (runVals segs).map f := by
  induction segs with
  | nil => rfl
  | cons s segs ih => simp [runVals] at ih ⊢; exact ih

/-- C1: point_bounding_boxes expands each point p to the box
{p - (r,r), p + (r,r)} and emits, in order, one box per contiguous run of
equal ids, each box being the fold of that run's expanded boxes under
box_minmax; a reappearing id in a non-adjacent run yields a separate box
(segmented reduction, not a global group-by); in particular ids
[0,0,1,1,1] with points [(0,0),(2,2),(5,5),(5,5),(7,7)] and radius 0
yield exactly [{(0,0),(2,2)}, {(5,5),(7,7)}]. -/
theorem point_bounding_boxes_runs :
    (∀ (segs : List (ℕ × List Vec2)) (r : ℚ), (∀ s ∈ segs, s.2 ≠ []) →
      segs.Chain' (fun s t => s.1 ≠ t.1) →
      point_bounding_boxes (runIds segs) (runVals segs) r =
        segs.map (fun s =>
          reduce1 box_minmax dfltBox (s.2.map (point_bounding_box r)))) ∧
    point_bounding_boxes [0, 0, 1, 1, 1]
      [⟨0, 0⟩, ⟨2, 2⟩, ⟨5, 5⟩, ⟨5, 5⟩, ⟨7, 7⟩] 0 =
      [⟨⟨0, 0⟩, ⟨2, 2⟩⟩, ⟨⟨5, 5⟩, ⟨7, 7⟩⟩] ∧
    point_bounding_boxes [0, 1, 0] [⟨0, 0⟩, ⟨2, 2⟩, ⟨5, 5⟩] 0 =
      [⟨⟨0, 0⟩, ⟨0, 0⟩⟩, ⟨⟨2, 2⟩, ⟨2, 2⟩⟩, ⟨⟨5, 5⟩, ⟨5, 5⟩⟩] := by
  refine ⟨?_, ?_, ?_⟩
  case refine_2 =>
    norm_num [point_bounding_boxes, reduceByKey, reduceByKeyGo, point_bounding_box,
      box_minmax, box_min, box_max, Vec2.sub_def, Vec2.add_def]
  case refine_3 =>
    norm_num [point_bounding_boxes, reduceByKey, reduceByKeyGo, point_bounding_box,
      box_minmax, box_min, box_max, Vec2.sub_def, Vec2.add_def]
  intro segs r hne hch
  unfold point_bounding_boxes
  have hmsegs := runIds_mapVals (point_bounding_box r) segs
  have hmvals := runVals_mapVals (point_bounding_box r) segs
  rw [← hmvals, ← hmsegs, runIds_zip_runVals,
    reduceByKey_segPairs box_minmax dfltBox _
      (by intro s hs
          simp only [List.mem_map] at hs
          obtain ⟨t, ht, rfl⟩ := hs
          simpa using hne t ht)
      (by rw [List.chain'_map]; exact hch)]
  simp

/-- Witness for C1's run-structured statement on concrete runs, with a
non-adjacent repetition of id 7. -/
theorem point_bounding_boxes_runs_witness :
    point_bounding_boxes
      (runIds ([(7, [⟨0, 0⟩, ⟨1, 1⟩]), (3, [⟨4, 4⟩]), (7, [⟨9, 9⟩])] :
        List (ℕ × List Vec2)))
      (runVals ([(7, [⟨0, 0⟩, ⟨1, 1⟩]), (3, [⟨4, 4⟩]), (7, [⟨9, 9⟩])] :
        List (ℕ × List Vec2))) 0 =
      [⟨⟨0, 0⟩, ⟨1, 1⟩⟩, ⟨⟨4, 4⟩, ⟨4, 4⟩⟩, ⟨⟨9, 9⟩, ⟨9, 9⟩⟩] := by
  rw [point_bounding_boxes_runs.1 _ 0 (by simp) (by simp)]
  norm_num [reduce1, box_minmax, box_min, box_max, point_bounding_box,
    Vec2.sub_def, Vec2.add_def]

theorem chain'_lt_getD_lt {o : List ℕ} (h : o.Chain' (· < ·)) {i j : ℕ}
    (hij : i < j) (hj : j < o.length) : o.getD i 0 < o.getD j 0 := by
  have hp : o.Pairwise (· < ·) := List.chain'_iff_pairwise.mp h
  have hi : i < o.length := lt_trans hij hj
  rw [List.getD_eq_getElem o 0 hi, List.getD_eq_getElem o 0 hj]
  exact List.pairwise_iff_getElem.mp hp i j hi hj hij

theorem chain'_lt_getD_le {o : List ℕ} (h : o.Chain' (· < ·)) {i j : ℕ}
    (hij : i ≤ j) (hj : j < o.length) : o.getD i 0 ≤ o.getD j 0 := by
  rcases Nat.lt_or_ge i j with hlt | hge
  · exact le_of_lt (chain'_lt_getD_lt h hlt hj)
  · have : i = j := le_antisymm hij hge
    subst this
    exact le_refl _

theorem chain'_lt_head_le_getLast {l : List ℕ} {a n : ℕ}
    (h : (a :: l).Chain' (· < ·)) (hn : (a :: l).getLast? = some n) : a ≤ n := by
  induction l generalizing a with
  | nil =>
    simp only [List.getLast?_singleton, Option.some.injEq] at hn
    omega
  | cons b rest ih =>
    have hab : a < b := (List.chain'_cons.mp h).1
    have hb := ih (List.chain'_cons.mp h).2 (by simpa using hn)
    omega

theorem chain'_lt_mem_le_getLast {l : List ℕ} {n : ℕ}
    (h : l.Chain' (· < ·)) (hn : l.getLast? = some n) : ∀ x ∈ l, x ≤ n := by
  induction l with
  | nil => simp
  | cons a tail ih =>
    intro x hx
    rcases List.mem_cons.mp hx with rfl | hx'
    · exact chain'_lt_head_le_getLast h hn
    · cases tail with
      | nil => simp at hx'
      | cons b rest =>
        exact ih (List.chain'_cons.mp h).2 (by simpa using hn) x hx'

theorem geometry_id_cons_cons (a b : ℕ) (rest : List ℕ) (v : ℕ) :
    geometry_id (a :: b :: rest) v =
      if b ≤ v then geometry_id (b :: rest) v + 1 else 0 := by
  by_cases hb : b ≤ v
  · simp [geometry_id, List.takeWhile_cons, hb, Nat.add_comm]
  · simp [geometry_id, List.takeWhile_cons, hb]

theorem geometry_id_singleton (a v : ℕ) : geometry_id [a] v = 0 := rfl

/-- On a strictly increasing offset list with last entry `n`, the id
sequence of the vertices `a, a+1, …, n-1` (shifted by `c`) is the run
sequence `expandIds c`: `b₁ - a` copies of `c`, then `b₂ - b₁` copies of
`c + 1`, and so on. -/
theorem map_geometry_id_eq_expandIds (tail : List ℕ) : ∀ (a c n : ℕ),
    (a :: tail).Chain' (· < ·) → (a :: tail).getLast? = some n →
    (List.range' a (n - a)).map (fun v => c + geometry_id (a :: tail) v) =
      expandIds c (a :: tail) := by
  induction tail with
  | nil =>
    intro a c n _ hn
    simp only [List.getLast?_singleton, Option.some.injEq] at hn
    subst hn
    simp [expandIds]
  | cons b rest ih =>
    intro a c n h hn
    have hab : a < b := (List.chain'_cons.mp h).1
    have hch : (b :: rest).Chain' (· < ·) := (List.chain'_cons.mp h).2
    have hn' : (b :: rest).getLast? = some n := by simpa using hn
    have hbn : b ≤ n := chain'_lt_head_le_getLast hch hn'
    have hsplit : List.range' a (n - a) =
        List.range' a (b - a) ++ List.range' b (n - b) := by
      have := List.range'_append_1 a (b - a) (n - b)
      rw [show a + (b - a) = b by omega] at this
      rw [show n - b + (b - a) = n - a by omega] at this
      exact this.symm
    rw [hsplit, List.map_append]
    have h1 : (List.range' a (b - a)).map
        (fun v => c + geometry_id (a :: b :: rest) v) = List.replicate (b - a) c := by
      rw [List.map_congr_left (g := fun _ => c), List.map_const']
      · simp
      · intro v hv
        rw [List.mem_range'_1] at hv
        have hvb : ¬ b ≤ v := by omega
        simp [geometry_id_cons_cons, hvb]
    have h2 : (List.range' b (n - b)).map
        (fun v => c + geometry_id (a :: b :: rest) v) =
        expandIds (c + 1) (b :: rest) := by
      rw [List.map_congr_left (g := fun v => (c + 1) + geometry_id (b :: rest) v)]
      · exact ih b (c + 1) n hch hn'
      · intro v hv
        rw [List.mem_range'_1] at hv
        have hbv : b ≤ v := hv.1
        rw [geometry_id_cons_cons]
        rw [if_pos hbv]
        omega
    rw [h1, h2]
    rfl

theorem offsetSegs_runIds {α : Type} (tail : List ℕ) : ∀ (a c n : ℕ) (vals : List α),
    (a :: tail).Chain' (· < ·) → (a :: tail).getLast? = some n →
    vals.length = n - a →
    runIds (offsetSegs c (a :: tail) vals) = expandIds c (a :: tail) := by
  induction tail with
  | nil => intro a c n _ _ _ _; rfl
  | cons b rest ih =>
    intro a c n vals h hn hlen
    have hab : a < b := (List.chain'_cons.mp h).1
    have hch : (b :: rest).Chain' (· < ·) := (List.chain'_cons.mp h).2
    have hn' : (b :: rest).getLast? = some n := by simpa using hn
    have hbn : b ≤ n := chain'_lt_head_le_getLast hch hn'
    have htk : (vals.take (b - a)).length = b - a := by
      rw [List.length_take]
      omega
    have hdr : (vals.drop (b - a)).length = n - b := by
      rw [List.length_drop]
      omega
    show List.replicate (vals.take (b - a)).length c ++
        runIds (offsetSegs (c + 1) (b :: rest) (vals.drop (b - a))) = _
    rw [htk, ih b (c + 1) n (vals.drop (b - a)) hch hn' hdr]
    rfl

theorem offsetSegs_runVals {α : Type} (tail : List ℕ) : ∀ (a c n : ℕ) (vals : List α),
    (a :: tail).Chain' (· < ·) → (a :: tail).getLast? = some n →
    vals.length = n - a →
    runVals (offsetSegs c (a :: tail) vals) = vals := by
  induction tail with
  | nil =>
    intro a c n vals _ hn hlen
    simp only [List.getLast?_singleton, Option.some.injEq] at hn
    subst hn
    simp only [Nat.sub_self] at hlen
    rw [List.length_eq_zero] at hlen
    subst hlen
    rfl
  | cons b rest ih =>
    intro a c n vals h hn hlen
    have hab : a < b := (List.chain'_cons.mp h).1
    have hch : (b :: rest).Chain' (· < ·) := (List.chain'_cons.mp h).2
    have hn' : (b :: rest).getLast? = some n := by simpa using hn
    have hbn : b ≤ n := chain'_lt_head_le_getLast hch hn'
    have hdr : (vals.drop (b - a)).length = n - b := by
      rw [List.length_drop]
      omega
    show vals.take (b - a) ++ runVals (offsetSegs (c + 1) (b :: rest) (vals.drop (b - a))) = _
    rw [ih b (c + 1) n (vals.drop (b - a)) hch hn' hdr, List.take_append_drop]

theorem offsetSegs_nonempty {α : Type} (tail : List ℕ) : ∀ (a c n : ℕ) (vals : List α),
    (a :: tail).Chain' (· < ·) → (a :: tail).getLast? = some n →
    vals.length = n - a →
    ∀ s ∈ offsetSegs c (a :: tail) vals, s.2 ≠ [] := by
  induction tail with
  | nil => intro a c n vals _ _ _ s hs; simp [offsetSegs] at hs
  | cons b rest ih =>
    intro a c n vals h hn hlen s hs
    have hab : a < b := (List.chain'_cons.mp h).1
    have hch : (b :: rest).Chain' (· < ·) := (List.chain'_cons.mp h).2
    have hn' : (b :: rest).getLast? = some n := by simpa using hn
    have hbn : b ≤ n := chain'_lt_head_le_getLast hch hn'
    have hdr : (vals.drop (b - a)).length = n - b := by
      rw [List.length_drop]
      omega
    rcases List.mem_cons.mp hs with rfl | hs'
    · show vals.take (b - a) ≠ []
      have : (vals.take (b - a)).length = b - a := by
        rw [List.length_take]
        omega
      intro hempty
      rw [hempty] at this
      simp at this
      omega
    · exact ih b (c + 1) n (vals.drop (b - a)) hch hn' hdr s hs'

theorem offsetSegs_chain' {α : Type} (o : List ℕ) : ∀ (c : ℕ) (vals : List α),
    (offsetSegs c o vals).Chain' (fun s t => s.1 ≠ t.1) := by
  induction o with
  | nil => intro c vals; simp [offsetSegs]
  | cons a tail ih =>
    intro c vals
    cases tail with
    | nil => simp [offsetSegs]
    | cons b rest =>
      show ((c, vals.take (b - a)) ::
        offsetSegs (c + 1) (b :: rest) (vals.drop (b - a))).Chain' _
      rw [List.chain'_cons']
      refine ⟨?_, ih (c + 1) (vals.drop (b - a))⟩
      intro y hy
      cases rest with
      | nil => simp [offsetSegs] at hy
      | cons b2 rest2 =>
        simp only [offsetSegs, List.head?_cons, Option.mem_def,
          Option.some.injEq] at hy
        subst hy
        simp

theorem offsetSegs_length {α : Type} (o : List ℕ) : ∀ (c : ℕ) (vals : List α),
    (offsetSegs c o vals).length = o.length - 1 := by
  induction o with
  | nil => intro c vals; rfl
  | cons a tail ih =>
    intro c vals
    cases tail with
    | nil => rfl
    | cons b rest =>
      show (offsetSegs (c + 1) (b :: rest) (vals.drop (b - a))).length + 1 = _
      rw [ih (c + 1) (vals.drop (b - a))]
      simp

theorem offsetSegs_getElem? {α : Type} (tail : List ℕ) : ∀ (a c p : ℕ) (vals : List α),
    (a :: tail).Chain' (· < ·) → p + 1 < (a :: tail).length →
    (offsetSegs c (a :: tail) vals)[p]? =
      some (c + p, (vals.drop ((a :: tail).getD p 0 - a)).take
        ((a :: tail).getD (p + 1) 0 - (a :: tail).getD p 0)) := by
  induction tail with
  | nil => intro a c p vals _ hp; simp at hp
  | cons b rest ih =>
    intro a c p vals h hp
    have hab : a < b := (List.chain'_cons.mp h).1
    have hch : (b :: rest).Chain' (· < ·) := (List.chain'_cons.mp h).2
    cases p with
    | zero =>
      simp [offsetSegs]
    | succ q =>
      have hq : q + 1 < (b :: rest).length := by
        simp only [List.length_cons] at hp ⊢
        omega
      have hbq : b ≤ (b :: rest).getD q 0 := by
        have := chain'_lt_getD_le hch (Nat.zero_le q) (by omega)
        simpa using this
      show ((c, vals.take (b - a)) ::
        offsetSegs (c + 1) (b :: rest) (vals.drop (b - a)))[q + 1]? = _
      rw [List.getElem?_cons_succ, ih b (c + 1) q (vals.drop (b - a)) hch hq]
      rw [List.drop_drop]
      have e1 : c + 1 + q = c + (q + 1) := by omega
      have e2 : b - a + ((b :: rest).getD q 0 - b) = (b :: rest).getD q 0 - a := by
        omega
      simp only [List.getD_cons_succ]
      rw [e1, e2]

/-- Unfolding equation for `linestring_bounding_boxes`. -/
theorem linestring_bounding_boxes_eq (o : List ℕ) (vs : List Vec2) (r : ℚ) :
    linestring_bounding_boxes o vs r =
      if (o.length : ℤ) - 1 = 0 ∨ (vs.length : ℤ) = 0 then []
      else point_bounding_boxes
        ((List.range vs.length).map (geometry_id o)) vs r := rfl

/-- Unfolding equation for `polygon_bounding_boxes`. -/
theorem polygon_bounding_boxes_eq (valid : ℕ → ℕ → ℕ → Bool)
    (po ro : List ℕ) (vs : List Vec2) (r : ℚ) :
    polygon_bounding_boxes valid po ro vs r =
      if 0 < (po.length : ℤ) - 1 then
        if valid vs.length po.length ro.length then
          if (po.length : ℤ) - 1 = 0 ∨ (ro.length : ℤ) - 1 = 0 ∨
              (vs.length : ℤ) = 0 then Except.ok []
          else Except.ok (point_bounding_boxes
            ((List.range vs.length).map
              (fun v => geometry_id po (geometry_id ro v))) vs r)
        else Except.error CuspatialError.InvalidGeometryError
      else Except.ok [] := rfl

/-- Central structure theorem of the one-level pipeline: on a strictly
increasing offset array starting at 0 and ending at the vertex count, the
generated id stream makes the segmented reduction emit exactly one folded
box per offset interval, in order. -/
theorem point_bounding_boxes_offsets (o : List ℕ) (pts : List Vec2) (r : ℚ)
    (hch : o.Chain' (· < ·)) (h0 : o.head? = some 0)
    (hl : o.getLast? = some pts.length) :
    point_bounding_boxes ((List.range pts.length).map (geometry_id o)) pts r =
      (offsetSegs 0 o (pts.map (point_bounding_box r))).map
        (fun s => reduce1 box_minmax dfltBox s.2) := by
  obtain ⟨a, tail, rfl⟩ : ∃ a tail, o = a :: tail := by
    cases o with
    | nil => simp at h0
    | cons a tail => exact ⟨a, tail, rfl⟩
  have ha : a = 0 := by simpa using h0
  subst ha
  have hids : (List.range pts.length).map (geometry_id (0 :: tail)) =
      expandIds 0 (0 :: tail) := by
    have h := map_geometry_id_eq_expandIds tail 0 0 pts.length hch hl
    rw [List.range_eq_range']
    simpa using h
  have hvlen : (pts.map (point_bounding_box r)).length = pts.length - 0 := by
    simp
  have h1 := offsetSegs_runIds tail 0 0 pts.length
    (pts.map (point_bounding_box r)) hch hl hvlen
  have h2 := offsetSegs_runVals tail 0 0 pts.length
    (pts.map (point_bounding_box r)) hch hl hvlen
  have h3 := offsetSegs_nonempty tail 0 0 pts.length
    (pts.map (point_bounding_box r)) hch hl hvlen
  have h4 := offsetSegs_chain' (0 :: tail) 0 (pts.map (point_bounding_box r))
  unfold point_bounding_boxes
  rw [hids]
  set S := offsetSegs 0 (0 :: tail) (pts.map (point_bounding_box r)) with hS
  rw [← h1, ← h2, runIds_zip_runVals]
  exact reduceByKey_segPairs box_minmax dfltBox S h3 h4

/-- C6 (counterexample): with merely non-decreasing offsets the claimed
output cardinality fails: offsets [0,0,2] declare N = 2 linestrings over 2
vertices (non-decreasing, last offset = vertex count), but the first
linestring is empty, both vertices resolve to id 1, and only one box is
emitted. -/
theorem linestring_bounding_boxes_empty_linestring_counterexample :
    (linestring_bounding_boxes [0, 0, 2] [⟨0, 0⟩, ⟨1, 1⟩] 0).length ≠ 2 := by
  decide

/-- C6 (amended): for every linestring input with strictly increasing
offsets of length N+1 starting at 0 whose last offset equals the vertex
count: if N = 0 or the vertex sequence is empty, linestring_bounding_boxes
returns an empty output immediately with no error; otherwise it produces
exactly N boxes (e.g. offsets [0,3,5] with 5 vertices produce exactly 2
boxes). -/
theorem linestring_bounding_boxes_spec :
    (∀ (o : List ℕ) (r : ℚ), linestring_bounding_boxes o [] r = []) ∧
    (∀ (o : List ℕ) (vs : List Vec2) (r : ℚ), o.length = 1 →
      linestring_bounding_boxes o vs r = []) ∧
    (∀ (o : List ℕ) (vs : List Vec2) (r : ℚ), o.Chain' (· < ·) →
      o.head? = some 0 → o.getLast? = some vs.length → 2 ≤ o.length →
      (linestring_bounding_boxes o vs r).length = o.length - 1) := by
  refine ⟨?_, ?_, ?_⟩
  · intro o r
    rw [linestring_bounding_boxes_eq]
    simp
  · intro o vs r h1
    rw [linestring_bounding_boxes_eq, h1]
    simp
  · intro o vs r hch h0 hl hlen
    obtain ⟨a, b, tail, rfl⟩ : ∃ a b tail, o = a :: b :: tail := by
      match o, hlen with
      | a :: b :: tail, _ => exact ⟨a, b, tail, rfl⟩
    have ha : a = 0 := by simpa using h0
    subst ha
    have hab : 0 < b := (List.chain'_cons.mp hch).1
    have hbn : b ≤ vs.length :=
      chain'_lt_head_le_getLast (List.chain'_cons.mp hch).2 (by simpa using hl)
    have hcond : ¬ (((0 :: b :: tail).length : ℤ) - 1 = 0 ∨ (vs.length : ℤ) = 0) := by
      push_neg
      constructor
      · simp only [List.length_cons]
        push_cast
        omega
      · have : vs.length ≠ 0 := by omega
        exact_mod_cast this
    rw [linestring_bounding_boxes_eq, if_neg hcond,
      point_bounding_boxes_offsets _ _ _ hch h0 hl, List.length_map,
      offsetSegs_length]

/-- Witness for C6's amended statement: the spec's concrete cases. -/
theorem linestring_bounding_boxes_spec_witness :
    linestring_bounding_boxes [0] [] 0 = [] ∧
    (linestring_bounding_boxes [0, 3, 5]
      [⟨0, 0⟩, ⟨1, 1⟩, ⟨2, 2⟩, ⟨3, 3⟩, ⟨4, 4⟩] 0).length = 2 := by
  constructor
  · exact linestring_bounding_boxes_spec.1 [0] 0
  · have h := linestring_bounding_boxes_spec.2.2 [0, 3, 5]
      [⟨0, 0⟩, ⟨1, 1⟩, ⟨2, 2⟩, ⟨3, 3⟩, ⟨4, 4⟩] 0
      (by norm_num [List.chain'_cons]) (by rfl) (by rfl) (by norm_num)
    simpa using h

/-- C3: polygon_bounding_boxes returns empty output unchanged when the
polygon count is 0 (for every validation predicate, i.e. without invoking
validation); raises InvalidGeometryError with no partial output when the
polygon count is positive and validation rejects the
polygon-offset/ring-offset/vertex-count triad; and returns empty output
with no error when validation passes and any of polygon/ring/vertex count
is zero. -/
theorem polygon_bounding_boxes_guards (valid : ℕ → ℕ → ℕ → Bool)
    (po ro : List ℕ) (vs : List Vec2) (r : ℚ) :
    (po.length = 1 → polygon_bounding_boxes valid po ro vs r = Except.ok []) ∧
    (1 < po.length → valid vs.length po.length ro.length = false →
      polygon_bounding_boxes valid po ro vs r =
        Except.error CuspatialError.InvalidGeometryError) ∧
    (valid vs.length po.length ro.length = true →
      po.length = 1 ∨ ro.length = 1 ∨ vs.length = 0 →
      polygon_bounding_boxes valid po ro vs r = Except.ok []) := by
  refine ⟨?_, ?_, ?_⟩
  · intro h1
    rw [polygon_bounding_boxes_eq, if_neg]
    rw [h1]
    norm_num
  · intro hgt hvf
    rw [polygon_bounding_boxes_eq,
      if_pos (show (0 : ℤ) < (po.length : ℤ) - 1 by omega),
      if_neg (show ¬ (valid vs.length po.length ro.length = true) by
        simp [hvf])]
  · intro hvt hzero
    have hcond : (po.length : ℤ) - 1 = 0 ∨ (ro.length : ℤ) - 1 = 0 ∨
        (vs.length : ℤ) = 0 := by
      rcases hzero with h1 | h1 | h1
      · exact Or.inl (by rw [h1]; norm_num)
      · exact Or.inr (Or.inl (by rw [h1]; norm_num))
      · exact Or.inr (Or.inr (by exact_mod_cast h1))
    rw [polygon_bounding_boxes_eq]
    by_cases hp : 0 < (po.length : ℤ) - 1
    · rw [if_pos hp, if_pos hvt, if_pos hcond]
    · rw [if_neg hp]

/-- Witness for C3: a polygon-count-0 call succeeds even under an
always-rejecting validator; a rejecting validator on one polygon yields
InvalidGeometryError; an accepting validator with zero rings yields empty
output. -/
theorem polygon_bounding_boxes_guards_witness :
    polygon_bounding_boxes (fun _ _ _ => false) [0] [0, 3] [⟨0, 0⟩] 0 =
      Except.ok [] ∧
    polygon_bounding_boxes (fun _ _ _ => false) [0, 1] [0, 1] [⟨0, 0⟩] 0 =
      Except.error CuspatialError.InvalidGeometryError ∧
    polygon_bounding_boxes (fun _ _ _ => true) [0, 1] [0] [⟨0, 0⟩] 0 =
      Except.ok [] := by
  refine ⟨?_, ?_, ?_⟩
  · exact (polygon_bounding_boxes_guards _ [0] [0, 3] [⟨0, 0⟩] 0).1 (by decide)
  · exact (polygon_bounding_boxes_guards _ [0, 1] [0, 1] [⟨0, 0⟩] 0).2.1
      (by decide) (by decide)
  · exact (polygon_bounding_boxes_guards _ [0, 1] [0] [⟨0, 0⟩] 0).2.2
      (by decide) (by decide)

theorem point_bounding_box_valid {r : ℚ} (hr : 0 ≤ r) (p : Vec2) :
    (point_bounding_box r p).Valid := by
  constructor <;>
    simp only [point_bounding_box, Vec2.sub_def, Vec2.add_def] <;>
    linarith

theorem box_minmax_valid (a b : Box) : (box_minmax a b).Valid := by
  refine ⟨?_, ?_⟩ <;>
    simp only [box_minmax, box_min, box_max] <;>
    exact le_trans (min_le_left _ _)
      (le_trans (le_trans (min_le_left _ _) (le_max_left _ _)) (le_max_left _ _))

theorem reduceByKeyGo_valid {K : Type} [DecidableEq K] (k : K) (acc : Box)
    (l : List (K × Box)) (hacc : acc.Valid) (hl : ∀ kv ∈ l, Box.Valid kv.2) :
    ∀ b ∈ reduceByKeyGo box_minmax k acc l, b.Valid := by
  induction l generalizing k acc with
  | nil =>
    intro b hb
    simp only [reduceByKeyGo, List.mem_singleton] at hb
    subst hb
    exact hacc
  | cons kv rest ih =>
    obtain ⟨k', v⟩ := kv
    intro b hb
    simp only [reduceByKeyGo] at hb
    by_cases hk : k = k'
    · rw [if_pos hk] at hb
      exact ih k (box_minmax acc v) (box_minmax_valid _ _)
        (fun kv hkv => hl kv (List.mem_cons_of_mem _ hkv)) b hb
    · rw [if_neg hk] at hb
      rcases List.mem_cons.mp hb with rfl | hb'
      · exact hacc
      · exact ih k' v (hl _ (List.mem_cons_self _ _))
          (fun kv hkv => hl kv (List.mem_cons_of_mem _ hkv)) b hb'

theorem reduceByKey_valid {K : Type} [DecidableEq K]
    (l : List (K × Box)) (hl : ∀ kv ∈ l, Box.Valid kv.2) :
    ∀ b ∈ reduceByKey box_minmax l, b.Valid := by
  cases l with
  | nil => intro b hb; simp [reduceByKey] at hb
  | cons kv rest =>
    obtain ⟨k, v⟩ := kv
    exact reduceByKeyGo_valid k v rest (hl _ (List.mem_cons_self _ _))
      (fun kv hkv => hl kv (List.mem_cons_of_mem _ hkv))

/-- C5: every box output by point_bounding_boxes (and hence by
linestring_bounding_boxes and polygon_bounding_boxes) satisfies the
invariant min.x ≤ max.x and min.y ≤ max.y, for every input and every
non-negative expansion radius; degenerate boxes with min = max are valid
outputs. -/
theorem output_boxes_valid (r : ℚ) (hr : 0 ≤ r) :
    (∀ (ids : List ℕ) (pts : List Vec2),
      ∀ b ∈ point_bounding_boxes ids pts r, b.Valid) ∧
    (∀ (o : List ℕ) (vs : List Vec2),
      ∀ b ∈ linestring_bounding_boxes o vs r, b.Valid) ∧
    (∀ (valid : ℕ → ℕ → ℕ → Bool) (po ro : List ℕ) (vs : List Vec2)
      (out : List Box),
      polygon_bounding_boxes valid po ro vs r = Except.ok out →
      ∀ b ∈ out, b.Valid) := by
  have hpt : ∀ (ids : List ℕ) (pts : List Vec2),
      ∀ b ∈ point_bounding_boxes ids pts r, b.Valid := by
    intro ids pts b hb
    apply reduceByKey_valid _ _ b hb
    intro kv hkv
    have h2 : kv.2 ∈ pts.map (point_bounding_box r) := by
      obtain ⟨k, v⟩ := kv
      exact (List.of_mem_zip hkv).2
    obtain ⟨p, _, hp⟩ := List.mem_map.mp h2
    rw [← hp]
    exact point_bounding_box_valid hr p
  refine ⟨hpt, ?_, ?_⟩
  · intro o vs b hb
    rw [linestring_bounding_boxes_eq] at hb
    by_cases hc : (o.length : ℤ) - 1 = 0 ∨ (vs.length : ℤ) = 0
    · rw [if_pos hc] at hb
      simp at hb
    · rw [if_neg hc] at hb
      exact hpt _ _ b hb
  · intro valid po ro vs out hout b hb
    rw [polygon_bounding_boxes_eq] at hout
    by_cases h1 : 0 < (po.length : ℤ) - 1
    · rw [if_pos h1] at hout
      by_cases h2 : valid vs.length po.length ro.length = true
      · rw [if_pos h2] at hout
        by_cases h3 : (po.length : ℤ) - 1 = 0 ∨ (ro.length : ℤ) - 1 = 0 ∨
            (vs.length : ℤ) = 0
        · rw [if_pos h3] at hout
          obtain rfl : ([] : List Box) = out := by simpa using hout
          simp at hb
        · rw [if_neg h3] at hout
          have hX := (Except.ok.inj hout)
          subst hX
          exact hpt _ _ b hb
      · rw [if_neg h2] at hout
        simp at hout
    · rw [if_neg h1] at hout
      obtain rfl : ([] : List Box) = out := by simpa using hout
      simp at hb

/-- Witness for C5: the single zero-radius-free case of the spec — point
(0,0) with radius 1 produces the valid box {(-1,-1),(1,1)}. -/
theorem output_boxes_valid_witness : Box.Valid ⟨⟨-1, -1⟩, ⟨1, 1⟩⟩ :=
  (output_boxes_valid 1 (by norm_num)).1 [0] [⟨0, 0⟩] ⟨⟨-1, -1⟩, ⟨1, 1⟩⟩
    (by norm_num [point_bounding_boxes, reduceByKey, reduceByKeyGo,
      point_bounding_box, Vec2.sub_def, Vec2.add_def])

theorem geometry_id_of_getD (tail : List ℕ) : ∀ (a i v : ℕ),
    (a :: tail).Chain' (· < ·) → i + 1 < (a :: tail).length →
    (a :: tail).getD i 0 ≤ v → v < (a :: tail).getD (i + 1) 0 →
    geometry_id (a :: tail) v = i := by
  induction tail with
  | nil => intro a i v _ hi _ _; simp at hi
  | cons b rest ih =>
    intro a i v h hi h1 h2
    cases i with
    | zero =>
      have hvb : v < b := by simpa using h2
      rw [geometry_id_cons_cons, if_neg (by omega)]
    | succ j =>
      have hch : (b :: rest).Chain' (· < ·) := (List.chain'_cons.mp h).2
      have hj : j + 1 < (b :: rest).length := by
        simp only [List.length_cons] at hi ⊢
        omega
      have h1' : (b :: rest).getD j 0 ≤ v := by simpa using h1
      have h2' : v < (b :: rest).getD (j + 1) 0 := by simpa using h2
      have hbj : b ≤ (b :: rest).getD j 0 := by
        have := chain'_lt_getD_le hch (Nat.zero_le j) (by omega)
        simpa using this
      rw [geometry_id_cons_cons, if_pos (by omega), ih b j v hch hj h1' h2']

theorem geometry_id_eq_index (o : List ℕ) (i v : ℕ) (hch : o.Chain' (· < ·))
    (hi : i + 1 < o.length) (h1 : o.getD i 0 ≤ v) (h2 : v < o.getD (i + 1) 0) :
    geometry_id o v = i := by
  match o, hi with
  | a :: tail, hi => exact geometry_id_of_getD tail a i v hch hi h1 h2

theorem geometry_id_lt_and_bounds (tail : List ℕ) : ∀ (a v n : ℕ),
    (a :: tail).Chain' (· < ·) → (a :: tail).getLast? = some n →
    a ≤ v → v < n →
    geometry_id (a :: tail) v + 1 < (a :: tail).length ∧
    (a :: tail).getD (geometry_id (a :: tail) v) 0 ≤ v ∧
    v < (a :: tail).getD (geometry_id (a :: tail) v + 1) 0 := by
  induction tail with
  | nil =>
    intro a v n _ hn hav hvn
    simp only [List.getLast?_singleton, Option.some.injEq] at hn
    omega
  | cons b rest ih =>
    intro a v n h hn hav hvn
    have hch : (b :: rest).Chain' (· < ·) := (List.chain'_cons.mp h).2
    have hn' : (b :: rest).getLast? = some n := by simpa using hn
    by_cases hbv : b ≤ v
    · obtain ⟨q1, q2, q3⟩ := ih b v n hch hn' hbv hvn
      rw [geometry_id_cons_cons, if_pos hbv]
      refine ⟨?_, ?_, ?_⟩
      · simp only [List.length_cons] at q1 ⊢
        omega
      · simpa using q2
      · simpa using q3
    · rw [geometry_id_cons_cons, if_neg hbv]
      exact ⟨by simp, by simpa using hav, by simpa using (by omega : v < b)⟩

theorem geometry_id_bounds (o : List ℕ) (v n : ℕ) (hch : o.Chain' (· < ·))
    (hn : o.getLast? = some n) (h0 : o.getD 0 0 ≤ v) (hv : v < n) :
    geometry_id o v + 1 < o.length ∧ o.getD (geometry_id o v) 0 ≤ v ∧
      v < o.getD (geometry_id o v + 1) 0 := by
  match o with
  | [] => simp at hn
  | a :: tail =>
    exact geometry_id_lt_and_bounds tail a v n hch hn (by simpa using h0) hv

theorem getD_length_sub_one {l : List ℕ} {n : ℕ} (h : l.getLast? = some n) :
    l.getD (l.length - 1) 0 = n := by
  rw [List.getLast?_eq_getElem?] at h
  simp [h]

theorem compOffsets_length (po ro : List ℕ) :
    (compOffsets po ro).length = po.length := by
  simp [compOffsets]

theorem compOffsets_getD (po ro : List ℕ) (i : ℕ) (hi : i < po.length) :
    (compOffsets po ro).getD i 0 = ro.getD (po.getD i 0) 0 := by
  unfold compOffsets
  rw [List.getD_eq_getElem _ _ (by simpa using hi), List.getElem_map,
    List.getD_eq_getElem _ _ hi]

theorem compOffsets_head? (po ro : List ℕ) :
    (compOffsets po ro).head? = po.head?.map (fun i => ro.getD i 0) := by
  simp [compOffsets]

theorem compOffsets_getLast? (po ro : List ℕ) :
    (compOffsets po ro).getLast? = po.getLast?.map (fun i => ro.getD i 0) := by
  simp [compOffsets]

theorem compOffsets_chain' (po ro : List ℕ) (hpo : po.Chain' (· < ·))
    (hro : ro.Chain' (· < ·)) (hpol : po.getLast? = some (ro.length - 1))
    (hro_ne : ro ≠ []) : (compOffsets po ro).Chain' (· < ·) := by
  unfold compOffsets
  rw [List.chain'_map]
  have hmem := chain'_lt_mem_le_getLast hpo hpol
  have hp : po.Pairwise (· < ·) := List.chain'_iff_pairwise.mp hpo
  have hp2 : po.Pairwise (fun i j => ro.getD i 0 < ro.getD j 0) := by
    refine hp.imp_of_mem ?_
    intro i j hi hj hij
    have hjb : j < ro.length := by
      have := hmem j hj
      have : ro.length ≠ 0 := by
        intro hz
        exact hro_ne (List.length_eq_zero.mp hz)
      omega
    exact chain'_lt_getD_lt hro hij hjb
  exact hp2.chain'

/-- Two-level id resolution composes to one-level resolution through the
composed offsets: the polygon of the ring of vertex `v` is the geometry of
`v` in the vertex-offsets-per-polygon array. -/
theorem geometry_id_comp (po ro : List ℕ) (v nv : ℕ)
    (hpo : po.Chain' (· < ·)) (hro : ro.Chain' (· < ·))
    (hpo0 : po.head? = some 0) (hro0 : ro.head? = some 0)
    (hpol : po.getLast? = some (ro.length - 1)) (hrol : ro.getLast? = some nv)
    (hv : v < nv) :
    geometry_id po (geometry_id ro v) = geometry_id (compOffsets po ro) v := by
  have hro_ne : ro ≠ [] := by
    intro h
    rw [h] at hro0
    simp at hro0
  have hro0' : ro.getD 0 0 = 0 := by
    match ro, hro0 with
    | a :: t, hro0 => simpa using hro0
  have hpo0' : po.getD 0 0 = 0 := by
    match po, hpo0 with
    | a :: t, hpo0 => simpa using hpo0
  obtain ⟨hr1, hr2, hr3⟩ :=
    geometry_id_bounds ro v nv hro hrol (by omega) hv
  obtain ⟨hp1, hp2, hp3⟩ :=
    geometry_id_bounds po (geometry_id ro v) (ro.length - 1) hpo hpol
      (by omega) (by omega)
  have hmem := chain'_lt_mem_le_getLast hpo hpol
  have hpnext_lt : po.getD (geometry_id po (geometry_id ro v) + 1) 0 < ro.length := by
    have hx : po.getD (geometry_id po (geometry_id ro v) + 1) 0 ∈ po := by
      rw [List.getD_eq_getElem _ _ hp1]
      exact List.getElem_mem _
    have := hmem _ hx
    have : ro.length ≠ 0 := fun hz => hro_ne (List.length_eq_zero.mp hz)
    omega
  symm
  apply geometry_id_eq_index
  · exact compOffsets_chain' po ro hpo hro hpol hro_ne
  · rw [compOffsets_length]
    exact hp1
  · rw [compOffsets_getD po ro _ (by omega)]
    calc ro.getD (po.getD (geometry_id po (geometry_id ro v)) 0) 0
        ≤ ro.getD (geometry_id ro v) 0 :=
          chain'_lt_getD_le hro hp2 (by omega)
      _ ≤ v := hr2
  · rw [compOffsets_getD po ro _ hp1]
    calc v < ro.getD (geometry_id ro v + 1) 0 := hr3
      _ ≤ ro.getD (po.getD (geometry_id po (geometry_id ro v) + 1) 0) 0 :=
          chain'_lt_getD_le hro (by omega) hpnext_lt

/-- The per-run folds of an offset-segmented value list, written as an
explicit map over the geometry indices with take/drop slices. -/
theorem offsetSegs_map_eq_range (o : List ℕ) (vals : List Box)
    (hch : o.Chain' (· < ·)) (h0 : o.head? = some 0) :
    (offsetSegs 0 o vals).map (fun s => reduce1 box_minmax dfltBox s.2) =
      (List.range (o.length - 1)).map (fun p =>
        reduce1 box_minmax dfltBox
          ((vals.drop (o.getD p 0)).take (o.getD (p + 1) 0 - o.getD p 0))) := by
  obtain ⟨a, tail, rfl⟩ : ∃ a t, o = a :: t := by
    match o, h0 with
    | a :: t, _ => exact ⟨a, t, rfl⟩
  have ha : a = 0 := by simpa using h0
  subst ha
  apply List.ext_getElem?
  intro p
  by_cases hp : p < (0 :: tail).length - 1
  · rw [List.getElem?_map, List.getElem?_map,
      offsetSegs_getElem? tail 0 0 p vals hch
        (by simp only [List.length_cons] at hp ⊢; omega),
      List.getElem?_range (by simpa using hp)]
    simp
  · have hl1 : ((offsetSegs 0 (0 :: tail) vals).map
        (fun s => reduce1 box_minmax dfltBox s.2)).length = (0 :: tail).length - 1 := by
      rw [List.length_map, offsetSegs_length]
    have hl2 : ((List.range ((0 :: tail).length - 1)).map (fun p =>
        reduce1 box_minmax dfltBox
          ((vals.drop ((0 :: tail).getD p 0)).take
            ((0 :: tail).getD (p + 1) 0 - (0 :: tail).getD p 0)))).length =
        (0 :: tail).length - 1 := by
      rw [List.length_map, List.length_range]
    rw [List.getElem?_eq_none (by omega), List.getElem?_eq_none (by omega)]

/-- C2: for polygon inputs satisfying the offset preconditions (strictly
increasing offsets starting at 0, polygon offsets ending at the ring
count, ring offsets ending at the vertex count), every vertex of every
ring (exterior and holes) of polygon p resolves to geometry id p, the
output has exactly one box per polygon, and polygon p's box is the fold of
the expanded vertices of all its rings, holes included. -/
theorem polygon_bounding_boxes_spec (valid : ℕ → ℕ → ℕ → Bool)
    (po ro : List ℕ) (vs : List Vec2) (r : ℚ)
    (hpo : po.Chain' (· < ·)) (hro : ro.Chain' (· < ·))
    (hpo0 : po.head? = some 0) (hro0 : ro.head? = some 0)
    (hpol : po.getLast? = some (ro.length - 1))
    (hrol : ro.getLast? = some vs.length)
    (hP : 2 ≤ po.length)
    (hvalid : valid vs.length po.length ro.length = true) :
    (∀ p v, p + 1 < po.length →
      (compOffsets po ro).getD p 0 ≤ v →
      v < (compOffsets po ro).getD (p + 1) 0 →
      geometry_id po (geometry_id ro v) = p) ∧
    polygon_bounding_boxes valid po ro vs r =
      Except.ok ((List.range (po.length - 1)).map (fun p =>
        reduce1 box_minmax dfltBox
          (((vs.drop ((compOffsets po ro).getD p 0)).take
              ((compOffsets po ro).getD (p + 1) 0 -
                (compOffsets po ro).getD p 0)).map (point_bounding_box r)))) ∧
    (∀ out, polygon_bounding_boxes valid po ro vs r = Except.ok out →
      out.length = po.length - 1) := by
  have hro_ne : ro ≠ [] := by
    intro h
    rw [h] at hro0
    simp at hro0
  have hro0' : ro.getD 0 0 = 0 := by
    match ro, hro0 with
    | a :: t, hro0 => simpa using hro0
  have hpo0' : po.getD 0 0 = 0 := by
    match po, hpo0 with
    | a :: t, hpo0 => simpa using hpo0
  have hpolast : po.getD (po.length - 1) 0 = ro.length - 1 :=
    getD_length_sub_one hpol
  have hrolast : ro.getD (ro.length - 1) 0 = vs.length :=
    getD_length_sub_one hrol
  have hrolen : 2 ≤ ro.length := by
    have h := chain'_lt_getD_lt hpo
      (show 0 < po.length - 1 by omega) (show po.length - 1 < po.length by omega)
    rw [hpo0', hpolast] at h
    omega
  have hnv : 1 ≤ vs.length := by
    have h := chain'_lt_getD_lt hro
      (show 0 < ro.length - 1 by omega) (show ro.length - 1 < ro.length by omega)
    rw [hro0', hrolast] at h
    omega
  have hcch : (compOffsets po ro).Chain' (· < ·) :=
    compOffsets_chain' po ro hpo hro hpol hro_ne
  have hch0 : (compOffsets po ro).head? = some 0 := by
    rw [compOffsets_head?, hpo0]
    simpa using hro0'
  have hclast : (compOffsets po ro).getLast? = some vs.length := by
    rw [compOffsets_getLast?, hpol]
    simpa using hrolast
  have hclen : (compOffsets po ro).length = po.length := compOffsets_length po ro
  have part1 : ∀ p v, p + 1 < po.length →
      (compOffsets po ro).getD p 0 ≤ v →
      v < (compOffsets po ro).getD (p + 1) 0 →
      geometry_id po (geometry_id ro v) = p := by
    intro p v hp h1 h2
    have hlast := getD_length_sub_one hclast
    have hle : (compOffsets po ro).getD (p + 1) 0 ≤
        (compOffsets po ro).getD ((compOffsets po ro).length - 1) 0 :=
      chain'_lt_getD_le hcch (by omega) (by omega)
    have hvlt : v < vs.length := by
      rw [hlast] at hle
      omega
    rw [geometry_id_comp po ro v vs.length hpo hro hpo0 hro0 hpol hrol hvlt]
    exact geometry_id_eq_index _ p v hcch (by omega) h1 h2
  have hcond : ¬ ((po.length : ℤ) - 1 = 0 ∨ (ro.length : ℤ) - 1 = 0 ∨
      (vs.length : ℤ) = 0) := by
    push_neg
    refine ⟨by omega, by omega, by omega⟩
  have main : polygon_bounding_boxes valid po ro vs r =
      Except.ok ((List.range (po.length - 1)).map (fun p =>
        reduce1 box_minmax dfltBox
          (((vs.drop ((compOffsets po ro).getD p 0)).take
              ((compOffsets po ro).getD (p + 1) 0 -
                (compOffsets po ro).getD p 0)).map (point_bounding_box r)))) := by
    rw [polygon_bounding_boxes_eq,
      if_pos (show (0 : ℤ) < (po.length : ℤ) - 1 by omega),
      if_pos hvalid, if_neg hcond]
    congr 1
    have hids : (List.range vs.length).map
        (fun v => geometry_id po (geometry_id ro v)) =
        (List.range vs.length).map (geometry_id (compOffsets po ro)) := by
      apply List.map_congr_left
      intro v hv
      rw [List.mem_range] at hv
      exact geometry_id_comp po ro v vs.length hpo hro hpo0 hro0 hpol hrol hv
    rw [hids, point_bounding_boxes_offsets _ _ _ hcch hch0 hclast,
      offsetSegs_map_eq_range _ _ hcch hch0, hclen]
    apply List.map_congr_left
    intro p hp
    congr 1
    rw [List.map_take, List.map_drop]
  refine ⟨part1, main, ?_⟩
  intro out hout
  rw [main] at hout
  have hX := Except.ok.inj hout
  rw [← hX, List.length_map, List.length_range]

/-- Witness for C2: one polygon of two rings (a triangular exterior ring
and a triangular hole); its box spans the union of both rings' vertices,
and a hole vertex (index 4) resolves to polygon id 0. -/
theorem polygon_bounding_boxes_spec_witness :
    geometry_id [0, 2] (geometry_id [0, 3, 6] 4) = 0 ∧
    polygon_bounding_boxes (fun _ _ _ => true) [0, 2] [0, 3, 6]
      [⟨0, 0⟩, ⟨4, 0⟩, ⟨4, 4⟩, ⟨1, 1⟩, ⟨2, 1⟩, ⟨2, 2⟩] 0 =
      Except.ok [⟨⟨0, 0⟩, ⟨4, 4⟩⟩] := by
  have h := polygon_bounding_boxes_spec (fun _ _ _ => true) [0, 2] [0, 3, 6]
    [⟨0, 0⟩, ⟨4, 0⟩, ⟨4, 4⟩, ⟨1, 1⟩, ⟨2, 1⟩, ⟨2, 2⟩] 0
    (by norm_num [List.chain'_cons]) (by norm_num [List.chain'_cons])
    (by rfl) (by rfl) (by rfl) (by rfl) (by norm_num) (by rfl)
  constructor
  · exact h.1 0 4 (by norm_num) (by decide) (by decide)
  · rw [h.2.1]
    norm_num [compOffsets, reduce1, box_minmax, box_min, box_max,
      point_bounding_box, Vec2.sub_def, Vec2.add_def, List.range_succ]

theorem sign_bit_mask_eq (w : ℕ) : sign_bit_mask w = 2 ^ (w - 1) := by
  simp [sign_bit_mask, Nat.shiftLeft_eq]

theorem and_sign_bit_ne_zero_iff {w sam : ℕ} (h : sam < 2 ^ w) (hw : 1 ≤ w) :
    sam &&& sign_bit_mask w ≠ 0 ↔ 2 ^ (w - 1) ≤ sam := by
  rw [sign_bit_mask_eq, Nat.and_two_pow]
  have hKpos : 0 < 2 ^ (w - 1) := Nat.pos_pow_of_pos _ (by decide)
  have hdlt : sam / 2 ^ (w - 1) < 2 := by
    rw [Nat.div_lt_iff_lt_mul hKpos]
    calc sam < 2 ^ w := h
      _ = 2 ^ (w - 1 + 1) := by congr 1; omega
      _ = 2 * 2 ^ (w - 1) := by rw [Nat.pow_succ]; ring
  rw [Nat.testBit_to_div_mod]
  have hdm : sam / 2 ^ (w - 1) % 2 = sam / 2 ^ (w - 1) := Nat.mod_eq_of_lt hdlt
  constructor
  · intro hne
    have h1 : sam / 2 ^ (w - 1) = 1 := by
      by_contra hne1
      rw [hdm] at hne
      simp [hne1] at hne
    calc 2 ^ (w - 1) = 1 * 2 ^ (w - 1) := (one_mul _).symm
      _ ≤ sam := by
        rw [← Nat.le_div_iff_mul_le hKpos, h1]
  · intro hle
    have h1 : 1 ≤ sam / 2 ^ (w - 1) := by
      rw [Nat.le_div_iff_mul_le hKpos, one_mul]
      exact hle
    have h2 : sam / 2 ^ (w - 1) = 1 := by omega
    rw [hdm, h2]
    simp

theorem lor_sign_bit_eq_add {w sam : ℕ} (h : sam < 2 ^ (w - 1)) :
    sam ||| sign_bit_mask w = 2 ^ (w - 1) + sam := by
  rw [sign_bit_mask_eq]
  have := Nat.mul_add_lt_is_or h 1
  rw [Nat.mul_one] at this
  rw [Nat.lor_comm]
  exact this.symm

/-- Closed form of the biased conversion: patterns with the sign bit set
map to `2^(w-1) - magnitude`, the others to `2^(w-1) + magnitude`. -/
theorem signmagnitude_to_biased_eq {w b : ℕ} (hb : b < 2 ^ w) (hw : 1 ≤ w) :
    signmagnitude_to_biased w b =
      if 2 ^ (w - 1) ≤ b then 2 ^ (w - 1) - mag_of w b
      else 2 ^ (w - 1) + mag_of w b := by
  have hKpos : 0 < 2 ^ (w - 1) := Nat.pos_pow_of_pos _ (by decide)
  have h2w : 2 ^ w = 2 ^ (w - 1) + 2 ^ (w - 1) := by
    calc 2 ^ w = 2 ^ (w - 1 + 1) := by congr 1; omega
      _ = 2 ^ (w - 1) * 2 := Nat.pow_succ _ _
      _ = 2 ^ (w - 1) + 2 ^ (w - 1) := by ring
  unfold signmagnitude_to_biased
  by_cases hs : 2 ^ (w - 1) ≤ b
  · rw [if_pos ((and_sign_bit_ne_zero_iff hb hw).mpr hs), if_pos hs]
    have hmag : mag_of w b = b - 2 ^ (w - 1) := by
      unfold mag_of
      conv_lhs => rw [show b = (b - 2 ^ (w - 1)) + 1 * 2 ^ (w - 1) by omega]
      rw [Nat.add_mul_mod_self_right]
      exact Nat.mod_eq_of_lt (by omega)
    rw [hmag]
    have hlt : 2 ^ w - 1 - b + 1 = 2 ^ w - b := by omega
    rw [hlt]
    rw [Nat.mod_eq_of_lt (by omega)]
    omega
  · rw [if_neg (by rw [and_sign_bit_ne_zero_iff hb hw]; exact hs), if_neg hs]
    have hmag : mag_of w b = b := Nat.mod_eq_of_lt (by omega)
    rw [lor_sign_bit_eq_add (by omega), hmag]

/-- Characterization of NaN on the magnitude: a pattern below `2 ^ w` is
not NaN exactly when its magnitude is at most the infinity magnitude. -/
theorem isnan_bits_eq_false_iff {w e b : ℕ} (he : 1 ≤ e) (hw : e + 2 ≤ w)
    (hb : b < 2 ^ w) :
    isnan_bits w e b = false ↔ mag_of w b ≤ inf_mag w e := by
  have hMpos : 0 < 2 ^ (w - 1 - e) := Nat.pos_pow_of_pos _ (by decide)
  have hEepos : 0 < 2 ^ e := Nat.pos_pow_of_pos _ (by decide)
  have hKsplit : 2 ^ (w - 1) = 2 ^ (w - 1 - e) * 2 ^ e := by
    rw [← pow_add]
    congr 1
    omega
  have hmant : b % 2 ^ (w - 1 - e) = mag_of w b % 2 ^ (w - 1 - e) := by
    unfold mag_of
    rw [Nat.mod_mod_of_dvd]
    rw [hKsplit]
    exact Dvd.intro _ rfl
  have hexp : b / 2 ^ (w - 1 - e) % 2 ^ e = mag_of w b / 2 ^ (w - 1 - e) := by
    unfold mag_of
    rw [hKsplit, Nat.mod_mul_right_div_self]
  have hmag_lt : mag_of w b < 2 ^ (w - 1 - e) * 2 ^ e := by
    rw [← hKsplit]
    exact Nat.mod_lt _ (by rw [hKsplit]; positivity)
  have hdm := Nat.div_add_mod (mag_of w b) (2 ^ (w - 1 - e))
  have hmod := Nat.mod_lt (mag_of w b) hMpos
  have hdiv : mag_of w b / 2 ^ (w - 1 - e) < 2 ^ e := by
    rw [Nat.div_lt_iff_lt_mul hMpos]
    calc mag_of w b < 2 ^ (w - 1 - e) * 2 ^ e := hmag_lt
      _ = 2 ^ e * 2 ^ (w - 1 - e) := mul_comm _ _
  have hE : inf_mag w e = (2 ^ e - 1) * 2 ^ (w - 1 - e) := rfl
  unfold isnan_bits
  rw [hmant, hexp]
  simp only [Bool.and_eq_false_iff, decide_eq_false_iff_not, ne_eq,
    Decidable.not_not]
  constructor
  · intro hor
    rcases hor with hq | hr
    · have hq2 : mag_of w b / 2 ^ (w - 1 - e) + 1 ≤ 2 ^ e - 1 := by omega
      have hchain : mag_of w b < 2 ^ (w - 1 - e) *
          (mag_of w b / 2 ^ (w - 1 - e) + 1) := by
        calc mag_of w b
            < 2 ^ (w - 1 - e) * (mag_of w b / 2 ^ (w - 1 - e)) +
              2 ^ (w - 1 - e) := by omega
          _ = 2 ^ (w - 1 - e) * (mag_of w b / 2 ^ (w - 1 - e) + 1) := by ring
      calc mag_of w b
          ≤ 2 ^ (w - 1 - e) * (mag_of w b / 2 ^ (w - 1 - e) + 1) - 1 := by omega
        _ ≤ 2 ^ (w - 1 - e) * (2 ^ e - 1) - 1 := by
            have := Nat.mul_le_mul_left (2 ^ (w - 1 - e)) hq2
            omega
        _ ≤ (2 ^ e - 1) * 2 ^ (w - 1 - e) := by
            rw [mul_comm]
            omega
    · have hdvd : mag_of w b = 2 ^ (w - 1 - e) * (mag_of w b / 2 ^ (w - 1 - e)) := by
        omega
      rw [hE, hdvd]
      calc 2 ^ (w - 1 - e) * (mag_of w b / 2 ^ (w - 1 - e))
          ≤ 2 ^ (w - 1 - e) * (2 ^ e - 1) :=
            Nat.mul_le_mul_left _ (by omega)
        _ = (2 ^ e - 1) * 2 ^ (w - 1 - e) := mul_comm _ _
  · intro hle
    by_cases hq : mag_of w b / 2 ^ (w - 1 - e) = 2 ^ e - 1
    · right
      rw [hq] at hdm
      rw [hE] at hle
      have hcm : (2 ^ e - 1) * 2 ^ (w - 1 - e) =
          2 ^ (w - 1 - e) * (2 ^ e - 1) := mul_comm _ _
      omega
    · left
      exact hq

theorem sign_of_eq_one_iff {w b : ℕ} (hb : b < 2 ^ w) (hw : 1 ≤ w) :
    sign_of w b = 1 ↔ 2 ^ (w - 1) ≤ b := by
  have hKpos : 0 < 2 ^ (w - 1) := Nat.pos_pow_of_pos _ (by decide)
  have hdlt : b / 2 ^ (w - 1) < 2 := by
    rw [Nat.div_lt_iff_lt_mul hKpos]
    calc b < 2 ^ w := hb
      _ = 2 ^ (w - 1 + 1) := by congr 1; omega
      _ = 2 * 2 ^ (w - 1) := by rw [Nat.pow_succ]; ring
  unfold sign_of
  constructor
  · intro h1
    have := Nat.le_div_iff_mul_le hKpos |>.mp (le_of_eq h1.symm)
    omega
  · intro hle
    have h1 : 1 ≤ b / 2 ^ (w - 1) := by
      rw [Nat.le_div_iff_mul_le hKpos, one_mul]
      exact hle
    omega

theorem mag_of_lt (w b : ℕ) : mag_of w b < 2 ^ (w - 1) :=
  Nat.mod_lt _ (Nat.pos_pow_of_pos _ (by decide))

/-- The biased conversion is an order embedding of the IEEE value order:
on any two patterns, `val_lt` holds exactly when the biased images are
strictly ordered. -/
theorem val_lt_iff_biased_lt {w a b : ℕ} (ha : a < 2 ^ w) (hb : b < 2 ^ w)
    (hw : 1 ≤ w) :
    (val_lt w a b = true ↔
      signmagnitude_to_biased w a < signmagnitude_to_biased w b) := by
  have hma := mag_of_lt w a
  have hmb := mag_of_lt w b
  rw [signmagnitude_to_biased_eq ha hw, signmagnitude_to_biased_eq hb hw]
  unfold val_lt
  by_cases hsa : sign_of w a = 1
  · have hga : 2 ^ (w - 1) ≤ a := (sign_of_eq_one_iff ha hw).mp hsa
    rw [if_pos hsa, if_pos hga]
    by_cases hsb : sign_of w b = 1
    · have hgb : 2 ^ (w - 1) ≤ b := (sign_of_eq_one_iff hb hw).mp hsb
      rw [if_pos hsb, if_pos hgb]
      simp only [decide_eq_true_iff]
      omega
    · have hgb : ¬ 2 ^ (w - 1) ≤ b := fun hc =>
        hsb ((sign_of_eq_one_iff hb hw).mpr hc)
      rw [if_neg hsb, if_neg hgb]
      simp only [decide_eq_true_iff]
      omega
  · have hga : ¬ 2 ^ (w - 1) ≤ a := fun hc =>
      hsa ((sign_of_eq_one_iff ha hw).mpr hc)
    rw [if_neg hsa, if_neg hga]
    by_cases hsb : sign_of w b = 1
    · have hgb : 2 ^ (w - 1) ≤ b := (sign_of_eq_one_iff hb hw).mp hsb
      rw [if_pos hsb, if_pos hgb]
      simp only [Bool.false_eq_true, false_iff]
      omega
    · have hgb : ¬ 2 ^ (w - 1) ≤ b := fun hc =>
        hsb ((sign_of_eq_one_iff hb hw).mpr hc)
      rw [if_neg hsb, if_neg hgb]
      simp only [decide_eq_true_iff]
      omega

theorem inf_mag_lt (w e : ℕ) (he : 1 ≤ e) (hw : e + 2 ≤ w) :
    0 < inf_mag w e ∧ inf_mag w e < 2 ^ (w - 1) := by
  have hKsplit : 2 ^ (w - 1) = 2 ^ (w - 1 - e) * 2 ^ e := by
    rw [← pow_add]
    congr 1
    omega
  have hMpos : 0 < 2 ^ (w - 1 - e) := Nat.pos_pow_of_pos _ (by decide)
  have hEe : 2 ≤ 2 ^ e := by
    calc 2 = 2 ^ 1 := (pow_one 2).symm
      _ ≤ 2 ^ e := Nat.pow_le_pow_right (by decide) he
  constructor
  · unfold inf_mag
    exact Nat.mul_pos (by omega) hMpos
  · unfold inf_mag
    have h1 : (2 ^ e - 1) * 2 ^ (w - 1 - e) < 2 ^ e * 2 ^ (w - 1 - e) :=
      (Nat.mul_lt_mul_right hMpos).mpr (by omega)
    have h2 : 2 ^ e * 2 ^ (w - 1 - e) = 2 ^ (w - 1) := by
      rw [← pow_add]
      congr 1
      omega
    omega

theorem biased_range_of_not_nan {w e b : ℕ} (he : 1 ≤ e) (hw : e + 2 ≤ w)
    (hb : b < 2 ^ w) (hn : isnan_bits w e b = false) :
    2 ^ (w - 1) - inf_mag w e ≤ signmagnitude_to_biased w b ∧
      signmagnitude_to_biased w b ≤ 2 ^ (w - 1) + inf_mag w e := by
  have hmag := (isnan_bits_eq_false_iff he hw hb).mp hn
  have hmlt := mag_of_lt w b
  rw [signmagnitude_to_biased_eq hb (by omega)]
  by_cases hs : 2 ^ (w - 1) ≤ b
  · rw [if_pos hs]
    omega
  · rw [if_neg hs]
    omega

theorem exists_pattern_of_biased (w e k : ℕ) (he : 1 ≤ e) (hw : e + 2 ≤ w)
    (hk1 : 2 ^ (w - 1) - inf_mag w e ≤ k) (hk2 : k ≤ 2 ^ (w - 1) + inf_mag w e) :
    ∃ z, z < 2 ^ w ∧ isnan_bits w e z = false ∧
      signmagnitude_to_biased w z = k := by
  obtain ⟨hEpos, hElt⟩ := inf_mag_lt w e he hw
  have h2w : 2 ^ w = 2 ^ (w - 1) + 2 ^ (w - 1) := by
    calc 2 ^ w = 2 ^ (w - 1 + 1) := by congr 1; omega
      _ = 2 ^ (w - 1) * 2 := Nat.pow_succ _ _
      _ = 2 ^ (w - 1) + 2 ^ (w - 1) := by ring
  by_cases hks : 2 ^ (w - 1) ≤ k
  · refine ⟨k - 2 ^ (w - 1), by omega, ?_, ?_⟩
    · rw [isnan_bits_eq_false_iff he hw (by omega)]
      unfold mag_of
      rw [Nat.mod_eq_of_lt (by omega)]
      omega
    · rw [signmagnitude_to_biased_eq (by omega) (by omega),
        if_neg (by omega)]
      unfold mag_of
      rw [Nat.mod_eq_of_lt (by omega)]
      omega
  · have hmag : mag_of w (2 ^ (w - 1) + (2 ^ (w - 1) - k)) =
        2 ^ (w - 1) - k := by
      unfold mag_of
      conv_lhs => rw [show 2 ^ (w - 1) + (2 ^ (w - 1) - k) =
        (2 ^ (w - 1) - k) + 1 * 2 ^ (w - 1) by omega]
      rw [Nat.add_mul_mod_self_right]
      exact Nat.mod_eq_of_lt (by omega)
    refine ⟨2 ^ (w - 1) + (2 ^ (w - 1) - k), by omega, ?_, ?_⟩
    · rw [isnan_bits_eq_false_iff he hw (by omega), hmag]
      omega
    · rw [signmagnitude_to_biased_eq (by omega) (by omega),
        if_pos (by omega), hmag]
      omega

theorem float_equal_true_of_close (w e t la lb : ℕ)
    (hna : isnan_bits w e la = false) (hnb : isnan_bits w e lb = false)
    (h1 : signmagnitude_to_biased w la - signmagnitude_to_biased w lb ≤ t)
    (h2 : signmagnitude_to_biased w lb - signmagnitude_to_biased w la ≤ t) :
    float_equal w e t la lb = true := by
  simp only [float_equal]
  rw [if_neg (by simp [hna, hnb])]
  split
  · simpa using h1
  · simpa using h2

theorem float_equal_zero_false_of_ne (w e la lb : ℕ)
    (h : signmagnitude_to_biased w la ≠ signmagnitude_to_biased w lb) :
    float_equal w e 0 la lb = false := by
  simp only [float_equal]
  split
  · rfl
  · split
    · simp only [decide_eq_false_iff_not]
      omega
    · simp only [decide_eq_false_iff_not]
      omega

/-- C8: for every pair of adjacent representable non-NaN values (b the
smallest representable value strictly above a), the biased-integer ULP
distance is exactly 1, so float_equal with tolerance ≥ 1 returns true on
them (in both argument orders); and for every pair of value-distinct
patterns, float_equal with tolerance 0 returns false. -/
theorem float_equal_adjacent_and_distinct (w e : ℕ) (he : 1 ≤ e)
    (hw : e + 2 ≤ w) :
    (∀ a b : ℕ, a < 2 ^ w → b < 2 ^ w →
      isnan_bits w e a = false → isnan_bits w e b = false →
      val_lt w a b = true →
      (∀ z, z < 2 ^ w → isnan_bits w e z = false →
        val_lt w a z = true → val_lt w z b = true → False) →
      signmagnitude_to_biased w b - signmagnitude_to_biased w a = 1 ∧
      (∀ t, 1 ≤ t → float_equal w e t a b = true ∧
        float_equal w e t b a = true)) ∧
    (∀ a b : ℕ, a < 2 ^ w → b < 2 ^ w →
      (val_lt w a b = true ∨ val_lt w b a = true) →
      float_equal w e 0 a b = false) := by
  have hw1 : 1 ≤ w := by omega
  constructor
  · intro a b ha hb hna hnb hlt hadj
    have hblt : signmagnitude_to_biased w a < signmagnitude_to_biased w b :=
      (val_lt_iff_biased_lt ha hb hw1).mp hlt
    have hra := biased_range_of_not_nan he hw ha hna
    have hrb := biased_range_of_not_nan he hw hb hnb
    have hdiff : signmagnitude_to_biased w b =
        signmagnitude_to_biased w a + 1 := by
      by_contra hne
      obtain ⟨z, hz1, hz2, hz3⟩ := exists_pattern_of_biased w e
        (signmagnitude_to_biased w a + 1) he hw (by omega) (by omega)
      exact hadj z hz1 hz2
        ((val_lt_iff_biased_lt ha hz1 hw1).mpr (by omega))
        ((val_lt_iff_biased_lt hz1 hb hw1).mpr (by omega))
    refine ⟨by omega, ?_⟩
    intro t ht
    exact ⟨float_equal_true_of_close w e t a b hna hnb (by omega) (by omega),
      float_equal_true_of_close w e t b a hnb hna (by omega) (by omega)⟩
  · intro a b ha hb hd
    by_cases hna : isnan_bits w e a = true
    · simp [float_equal, hna]
    · by_cases hnb : isnan_bits w e b = true
      · simp [float_equal, hnb]
      · rcases hd with h | h
        · exact float_equal_zero_false_of_ne w e a b
            (ne_of_lt ((val_lt_iff_biased_lt ha hb hw1).mp h))
        · exact float_equal_zero_false_of_ne w e a b
            (ne_of_gt ((val_lt_iff_biased_lt hb ha hw1).mp h))

theorem half_one_adjacent_aux : ∀ z, z < 2 ^ 16 → isnan_bits 16 5 z = false →
    val_lt 16 15360 z = true → val_lt 16 z 15361 = true → False := by
  intro z hz hnz h1 h2
  have hb1 := (val_lt_iff_biased_lt (by decide) hz (by decide)).mp h1
  have hb2 := (val_lt_iff_biased_lt hz (by decide) (by decide)).mp h2
  have e1 : signmagnitude_to_biased 16 15360 = 48128 := by decide
  have e2 : signmagnitude_to_biased 16 15361 = 48129 := by decide
  omega

/-- Witness for C8 at half precision (the 16-bit instantiation of the
comparator): 1.0 (bits 0x3C00 = 15360) and its successor 0x3C01 are one
ULP apart, equal at tolerance 1, distinct at tolerance 0. -/
theorem float_equal_adjacent_and_distinct_witness :
    signmagnitude_to_biased 16 15361 - signmagnitude_to_biased 16 15360 = 1 ∧
    float_equal 16 5 1 15360 15361 = true ∧
    float_equal 16 5 0 15360 15361 = false := by
  have h := float_equal_adjacent_and_distinct 16 5 (by decide) (by decide)
  obtain ⟨hd, hf⟩ := h.1 15360 15361 (by decide) (by decide) (by decide)
    (by decide) (by decide) half_one_adjacent_aux
  exact ⟨hd, (hf 1 (le_refl 1)).1,
    h.2 15360 15361 (by decide) (by decide) (Or.inl (by decide))⟩
